import Mathlib

/-!
Verification development for the SmartRepo indexing-and-search pipeline
(`core/repo_loader.py` and `core/explorer.py`).

The Python code is shallowly embedded: pure string/path manipulation is
translated directly; the filesystem, the network, the embedding model and
the Chroma vector store are external collaborators and appear as explicit
data (an `FSTree` value for the scanned directory tree, a listing of
repository files, a per-file fetch outcome function, a query function for
the vector store).  The persistent collection is modelled as an explicit
association list keyed by the string id, with `upsert` semantics
(overwrite-by-id).  The generator-based status pipeline is modelled as a
function returning the list of yielded status strings together with the
final store; the shared cancellation flag, which in the single-threaded
cooperative driver of the program can only change between two yields, is
modelled by the initial flag value plus the index of the first suspension
point at which an external `cancel_indexing` call is observed.
-/

namespace SmartRepo

/-! ## String helpers

`strContains hay needle` models the Python substring test `needle in hay`.
-/

def occursIn : List Char → List Char → Bool
  | [], _ => true
  | _ :: _, [] => false
  | n, c :: cs => List.isPrefixOf n (c :: cs) || occursIn n cs

def strContains (hay needle : String) : Bool :=
  occursIn needle.toList hay.toList

def splitChar (sep : Char) : List Char → List (List Char)
  | [] => [[]]
  | c :: cs =>
    match splitChar sep cs with
    | [] => [[c]]
    | r :: rs => if c == sep then [] :: r :: rs else (c :: r) :: rs

def charLower (c : Char) : Char :=
  if 'A' ≤ c ∧ c ≤ 'Z' then Char.ofNat (c.toNat + 32) else c

def strLower (s : String) : String :=
  String.mk (s.toList.map charLower)

/-! ## `pathlib.PurePosixPath` fragments used by `repo_loader.is_excluded`

Repository file paths are relative POSIX paths.  `pathlib` parsing drops
empty segments and `"."` segments; `name` is the last segment; `suffix` is
the part of the name from its last dot, provided that dot is neither the
first nor the last character of the name (so a file named exactly `.env`
has an empty suffix in Python, and so does `foo.`).
-/

def pathPartsChars (p : String) : List (List Char) :=
  (splitChar '/' p.toList).filter (fun s => !s.isEmpty && s ≠ ['.'])

def pathParts (p : String) : List String :=
  (pathPartsChars p).map String.mk

def pathName (p : String) : String :=
  String.mk ((pathPartsChars p).getLast?.getD [])

def joinSlash : List (List Char) → List Char
  | [] => []
  | [x] => x
  | x :: y :: rest => x ++ '/' :: joinSlash (y :: rest)

def pathAsPosix (p : String) : String :=
  String.mk (joinSlash (pathPartsChars p))

def pathSuffix (p : String) : String :=
  let cs := (pathName p).toList
  let dotIdxs := ((cs.enum.filter (fun ic => ic.2 == '.')).map (fun ic => ic.1))
  match dotIdxs.getLast? with
  | some i => if 0 < i ∧ i + 1 < cs.length then String.mk (cs.drop i) else ""
  | none => ""

/-! ## `repo_loader.py`: exclusion rules -/

def EXCLUDE_EXTENSIONS : List String :=
  [".lock", ".log", ".env", ".so", ".o", ".a", ".dll", ".exe", ".ipynb",
   ".svg", ".png", ".jpg", ".jpeg", ".gif", ".webp", ".ico", ".woff",
   ".woff2", ".ttf", ".eot", ".otf"]

def EXCLUDE_FILENAMES : List String :=
  [".gitignore", ".DS_Store", ".gitattributes"]

def EXCLUDE_PATTERNS : List String :=
  ["__pycache__/", ".git/", "node_modules/", "dist/", "build/", ".vscode/", ".idea/"]

def is_excluded (filepath : String) : Bool :=
  let nameLower := strLower (pathName filepath)
  let suffixLower := strLower (pathSuffix filepath)
  if EXCLUDE_FILENAMES.contains nameLower || EXCLUDE_EXTENSIONS.contains suffixLower then
    true
  else
    let normalized := pathAsPosix filepath ++ "/"
    EXCLUDE_PATTERNS.any (fun pat => strContains normalized pat)

/-! ## `repo_loader.get_remote_file_content`

The HTTP response is abstracted to the optional `content-length` header
value and the streamed list of byte chunks.  Decoding
(`content.decode('utf-8', errors='ignore')`) is external and lossless for
the claims considered here, so the model returns the raw byte list.
-/

inductive FetchErr where
  | tooLargeHeader
  | tooLargeStream
  | binaryFile
  | networkError
deriving DecidableEq, Repr

def DEFAULT_MAX_SIZE : Nat := 1000000

def accumulateChunks (maxSize : Nat) : List (List Nat) → List Nat → Option (List Nat)
  | [], acc => some acc
  | c :: cs, acc =>
    let acc' := acc ++ c
    if maxSize < acc'.length then none else accumulateChunks maxSize cs acc'

def get_remote_file_content (contentLength : Option Nat) (chunks : List (List Nat))
    (maxSize : Nat := DEFAULT_MAX_SIZE) : Except FetchErr (List Nat) :=
  match contentLength with
  | some l =>
    if maxSize < l then .error .tooLargeHeader
    else
      match accumulateChunks maxSize chunks [] with
      | none => .error .tooLargeStream
      | some content =>
        if (content.take 1024).contains 0 then .error .binaryFile else .ok content
  | none =>
    match accumulateChunks maxSize chunks [] with
    | none => .error .tooLargeStream
    | some content =>
      if (content.take 1024).contains 0 then .error .binaryFile else .ok content

def fetchOk : Except FetchErr (List Nat) → Bool
  | .ok _ => true
  | .error _ => false

/-! ## `repo_loader.get_repo_files`: the shared exclusion filter

The network listing itself is external; `get_repo_files_filtered` is the
final filtering step `[f for f in files if not is_excluded(f['path'])]`.
-/

structure RepoFile where
  path : String
  size : Nat
deriving DecidableEq, Repr

def get_repo_files_filtered (files : List RepoFile) : List RepoFile :=
  files.filter (fun f => !(is_excluded f.path))

/-! ## The persistent vector collection

Modelled as an association list of (id, metadata) pairs with unique ids.
Documents and embedding vectors live inside the external store and play no
role in the claims considered here, so an entry carries the metadata record
that `explorer.py` attaches to each id.  `upsert` is overwrite-by-id.
-/

structure MetaRec where
  relative_path : String
  full_path : String
  is_dir : Bool
  size_bytes : Nat
  modified_time : Nat
deriving DecidableEq, Repr

abbrev Store := List (String × MetaRec)

def storeIds (store : Store) : List String :=
  store.map Prod.fst

def upsertOne (store : Store) (e : String × MetaRec) : Store :=
  if (storeIds store).contains e.1 then
    store.map (fun x => if x.1 = e.1 then e else x)
  else
    store ++ [e]

def upsertMany (store : Store) (entries : List (String × MetaRec)) : Store :=
  entries.foldl upsertOne store

/-! ## The scanned local directory tree

`os.walk` input, as a rose tree.  A mutual inductive is used so that the
walk is a mutual structural recursion (reducible by the kernel).  `size`
and `mtime` are the `os.stat` results for the node; the model assumes no
filesystem race (the `FileNotFoundError` skip in the source never fires on
a fixed tree).
-/

mutual

inductive FSTree where
  | file (name : String) (size : Nat) (mtime : Nat)
  | dir (name : String) (size : Nat) (mtime : Nat) (children : FSForest)

inductive FSForest where
  | nil
  | cons (head : FSTree) (tail : FSForest)

end

def FSTree.name : FSTree → String
  | .file n _ _ => n
  | .dir n _ _ _ => n

def FSTree.isDir : FSTree → Bool
  | .file .. => false
  | .dir .. => true

def FSTree.fsize : FSTree → Nat
  | .file _ s _ => s
  | .dir _ s _ _ => s

def FSTree.mtime : FSTree → Nat
  | .file _ _ m => m
  | .dir _ _ m _ => m

def FSForest.toList : FSForest → List FSTree
  | .nil => []
  | .cons c cs => c :: cs.toList

def FSForest.append : FSForest → FSForest → FSForest
  | .nil, bs => bs
  | .cons a as, bs => .cons a (as.append bs)

/-! ## `_index_local_directory`: enumeration (`os.walk` with pruning)

At each directory, `dirs[:] = [d for d in dirs if d not in [...]]` prunes
the excluded directory names, then `for name in files + dirs` records one
path per file and per kept directory, and the walk descends into the kept
directories in order (top-down, depth-first).
-/

def LOCAL_EXCLUDED_DIRS : List String :=
  [".git", "__pycache__", ".vscode", "node_modules", ".idea", "chroma_db"]

def keptDir (c : FSTree) : Bool :=
  c.isDir && !(LOCAL_EXCLUDED_DIRS.contains c.name)

def keptDirs (cs : List FSTree) : List FSTree :=
  cs.filter keptDir

def fileChildren (cs : List FSTree) : List FSTree :=
  cs.filter (fun c => !c.isDir)

def pathJoin (root nm : String) : String :=
  root ++ "/" ++ nm

def levelEntries (root : String) (cs : List FSTree) : List (String × FSTree) :=
  (fileChildren cs ++ keptDirs cs).map (fun c => (pathJoin root c.name, c))

mutual

def walkTree (root : String) : FSTree → List (String × FSTree)
  | .file .. => []
  | .dir _ _ _ cs => levelEntries root cs.toList ++ walkForest root cs

def walkForest (root : String) : FSForest → List (String × FSTree)
  | .nil => []
  | .cons c cs =>
    (if keptDir c then walkTree (pathJoin root c.name) c else []) ++ walkForest root cs

end

/-! ## `_index_local_directory`: one metadata record per enumerated path

`os.path.relpath(path_str, root_path)` for a path produced by joining
names under `root_path` strips the `root_path + "/"` prefix.
-/

def relpathFrom (root p : String) : String :=
  let pre := (root ++ "/").toList
  let pl := p.toList
  if List.isPrefixOf pre pl then String.mk (pl.drop pre.length) else p

def localEntry (root : String) (pc : String × FSTree) : String × MetaRec :=
  ("local::" ++ pc.1,
   { relative_path := relpathFrom root pc.1
     full_path := pc.1
     is_dir := pc.2.isDir
     size_bytes := pc.2.fsize
     modified_time := pc.2.mtime })

def localEntries (root : String) (t : FSTree) : List (String × MetaRec) :=
  (walkTree root t).map (localEntry root)

/-! ## The batch pipeline (`_index_local_directory` / `_index_repository`)

The generator is modelled as a function returning the yielded status
strings, the final store, and the number of processed batches.  The
cooperative cancellation flag is `initFlag || (cutoff ≤ yields so far)`:
`initFlag` is the flag value when the generator body starts and `cutoff`
is the suspension index from which an external `cancel_indexing` call is
observed (the driver can only set the flag between two yields, and the
flag is never cleared during a run).  The progress callback is an external
side channel and is not modelled.  `for i in range(0, total, batch_size)`
executes exactly `ceil(total / batch_size)` iterations, which drives the
structural fuel of `runBatchesN`.
-/

def flagAt (initFlag : Bool) (cutoff : Option Nat) (yields : Nat) : Bool :=
  initFlag ||
    match cutoff with
    | none => false
    | some k => decide (k ≤ yields)

def batchMsg (bsize j total : Nat) : String :=
  let bn := j + 1
  let hi := min (j * bsize + bsize) total
  s!"Processing batch {bn}... ({hi}/{total})"

def numBatches (total bsize : Nat) : Nat :=
  (total + bsize - 1) / bsize

def scanDoneMsg (total : Nat) : String :=
  s!"Scan complete. Found {total} items to process."

def foundFilesMsg (total : Nat) : String :=
  s!"Found {total} files to process."

def cancelScanMsg (count : Nat) : String :=
  s!"Build cancelled. DB size: {count}"

def cancelDoneMsg (count : Nat) : String :=
  s!"Build cancelled. The database now contains {count} items."

def completeMsg (count : Nat) : String :=
  s!"Index build complete. The database now contains {count} items."

structure RunOut where
  messages : List String
  store : Store
  batchesDone : Nat
deriving DecidableEq, Repr

def runBatchesN {α : Type} (bsize total : Nat) (toEntries : List α → List (String × MetaRec))
    (initFlag : Bool) (cutoff : Option Nat) :
    Nat → List α → Store → Nat → Nat → List String × Store × Nat
  | 0, _, st, _, _ => ([], st, 0)
  | fuel + 1, rem, st, j, y =>
    if flagAt initFlag cutoff y then ([], st, 0)
    else
      let st' := upsertMany st (toEntries (rem.take bsize))
      let r := runBatchesN bsize total toEntries initFlag cutoff fuel (rem.drop bsize) st' (j + 1) (y + 1)
      (batchMsg bsize j total :: r.1, r.2.1, r.2.2 + 1)

def runLocalFrom (initFlag : Bool) (cutoff : Option Nat) (root : String) (t : FSTree)
    (store : Store) : RunOut :=
  let m1 := "Scanning directories..."
  if flagAt initFlag cutoff 1 then
    let n := store.length
    { messages := [m1, cancelScanMsg n], store := store, batchesDone := 0 }
  else
    let paths := walkTree root t
    let total := paths.length
    let m2 := scanDoneMsg total
    let r := runBatchesN 128 total (fun l => l.map (localEntry root)) initFlag cutoff
      (numBatches total 128) paths store 0 2
    let st := r.2.1
    let nb := r.2.2
    let fc := st.length
    let finalMsg :=
      if flagAt initFlag cutoff (2 + nb) then cancelDoneMsg fc else completeMsg fc
    { messages := m1 :: m2 :: r.1 ++ [finalMsg], store := st, batchesDone := nb }

/-! ## `_index_repository`

The listing (`get_repo_files`) is external up to its final exclusion
filter; per-file content fetch is abstracted to an outcome per path (url
joining and percent-encoding are part of the external HTTP layer).  A
fetch error skips just that file (`continue`).  `size_bytes` is the
listed size, `modified_time` is the indexing time (no reliable modified
time from the API), and the id is `repo::{repo_url}::{file_path}`.
-/

def repoFileId (repoUrl path : String) : String :=
  "repo::" ++ repoUrl ++ "::" ++ path

def repoBatchEntries (repoUrl baseUrl : String) (now : Nat)
    (fetch : String → Except FetchErr (List Nat)) (batch : List RepoFile) :
    List (String × MetaRec) :=
  batch.filterMap (fun f =>
    match fetch f.path with
    | .error _ => none
    | .ok _ => some (repoFileId repoUrl f.path,
        { relative_path := f.path
          full_path := baseUrl ++ f.path
          is_dir := false
          size_bytes := f.size
          modified_time := now }))

def runRepoFrom (initFlag : Bool) (cutoff : Option Nat) (repoUrl baseUrl : String)
    (files : List RepoFile) (fetch : String → Except FetchErr (List Nat)) (now : Nat)
    (store : Store) : RunOut :=
  let m1 := "Fetching repository file list..."
  let filtered := get_repo_files_filtered files
  let total := filtered.length
  let m2 := foundFilesMsg total
  let r := runBatchesN 50 total (repoBatchEntries repoUrl baseUrl now fetch) initFlag cutoff
    (numBatches total 50) filtered store 0 2
  let st := r.2.1
  let nb := r.2.2
  let fc := st.length
  let finalMsg :=
    if flagAt initFlag cutoff (2 + nb) then cancelDoneMsg fc else completeMsg fc
  { messages := m1 :: m2 :: r.1 ++ [finalMsg], store := st, batchesDone := nb }

/-! ## `index_directory` and `cancel_indexing`

`index_directory` begins with `self.is_cancelled = False`, discarding any
flag value left over from before the run (e.g. a stale `cancel_indexing`
call); only cancellations observed at the run's own suspension points
(the `cutoff` argument) can stop it.  The local branch is modelled; the
repository branch differs only in the run invoked after the reset.
-/

def index_directory_local (preCancelled : Bool) (cutoff : Option Nat) (root : String)
    (t : FSTree) (store : Store) : RunOut :=
  runLocalFrom false cutoff root t store

/-! ## `search`: filter rewriting

A Chroma filter is either an `$and` list of single-field conditions or a
single top-level mapping of fields to conditions; a condition is a field
name with an operator and value.  `extract_path_filter` walks the `$and`
list, remembers the value of each `relative_path`/`$contains` condition in
a variable that is overwritten on every hit (so the last one encountered
survives), and keeps the other conditions in order.  The top-level branch
deletes the `relative_path` key when its condition is `$contains`.  An
emptied mapping is falsy in Python, so no native `where` is passed.
-/

structure FieldCond where
  field : String
  op : String
  value : String
deriving DecidableEq, Repr

inductive NativeFilter where
  | andF (conds : List FieldCond)
  | plainF (conds : List FieldCond)
deriving DecidableEq, Repr

def isContainsCond (c : FieldCond) : Bool :=
  c.field == "relative_path" && c.op == "$contains"

def extractPathFilter (conds : List FieldCond) : List FieldCond × Option String :=
  conds.foldl
    (fun acc c =>
      if isContainsCond c then (acc.1, some c.value) else (acc.1 ++ [c], acc.2))
    ([], none)

def lastContainsValue (pf : Option String) : List FieldCond → Option String
  | [] => pf
  | c :: cs =>
    if isContainsCond c then lastContainsValue (some c.value) cs
    else lastContainsValue pf cs

def rewriteFilters : Option NativeFilter → Option NativeFilter × Option String
  | none => (none, none)
  | some (.andF conds) =>
    let r := extractPathFilter conds
    ((if r.1.isEmpty then none else some (.andF r.1)), r.2)
  | some (.plainF conds) =>
    match conds.find? (fun c => c.field == "relative_path") with
    | some c =>
      if c.op == "$contains" then
        let rem := conds.filter (fun c' => !(c'.field == "relative_path"))
        ((if rem.isEmpty then none else some (.plainF rem)), some c.value)
      else ((if conds.isEmpty then none else some (.plainF conds)), none)
    | none => ((if conds.isEmpty then none else some (.plainF conds)), none)

/-! ## `search`: query and result shaping

The vector store's `query` call is abstracted to a function from the
requested candidate count and the native filter to the ranked candidate
list (distance plus metadata); the query embedding is internal to it.
Distances are modelled as rationals.  The result's `modified` field keeps
the stored epoch value (its materialization to a datetime is external),
and the `type` label keeps the File/Folder distinction (the emoji prefix
of the UI label is an encoding artifact of the source file).
-/

structure Candidate where
  dist : ℚ
  meta : MetaRec
deriving DecidableEq, Repr

structure SearchResult where
  similarity : ℚ
  path : String
  full_path : String
  type : String
  size : Option Nat
  modified : Nat
deriving DecidableEq, Repr

def mkResult (c : Candidate) : SearchResult :=
  { similarity := 1 - c.dist
    path := c.meta.relative_path
    full_path := c.meta.full_path
    type := if c.meta.is_dir then "Folder" else "File"
    size := if c.meta.is_dir then none else some c.meta.size_bytes
    modified := c.meta.modified_time }

def skipByPathFilter (pf : Option String) (m : MetaRec) : Bool :=
  match pf with
  | none => false
  | some s => !(s == "") && !(strContains m.relative_path s)

def collectResults (pf : Option String) (n_results : Nat) :
    Nat → List Candidate → List SearchResult
  | _, [] => []
  | numSoFar, c :: cs =>
    if skipByPathFilter pf c.meta then collectResults pf n_results numSoFar cs
    else if n_results ≤ numSoFar + 1 then [mkResult c]
    else mkResult c :: collectResults pf n_results (numSoFar + 1) cs

def search (count : Nat) (queryFn : Nat → Option NativeFilter → List Candidate)
    (query : String) (n_results : Nat) (metadata_filters : Option NativeFilter) :
    List SearchResult :=
  if count = 0 then []
  else
    let rw := rewriteFilters metadata_filters
    let nReq := min (n_results * 5) count
    let results := queryFn nReq rw.1
    if results.isEmpty then [] else collectResults rw.2 n_results 0 results

/-! ## `clear_index` -/

def clear_index (store : Store) : Nat × Store :=
  let count := store.length
  if 0 < count then
    let idsToDelete := storeIds store
    let store' :=
      if idsToDelete.isEmpty then store
      else store.filter (fun e => !(idsToDelete.contains e.1))
    (count, store')
  else (count, store)

/-! ## Store lemmas -/

theorem contains_ids_iff (st : Store) (x : String) :
    (storeIds st).contains x = true ↔ x ∈ storeIds st := by
  simp [List.contains]

theorem storeIds_upsertOne_of_mem (st : Store) (e : String × MetaRec)
    (h : e.1 ∈ storeIds st) : storeIds (upsertOne st e) = storeIds st := by
  unfold upsertOne
  rw [if_pos ((contains_ids_iff st e.1).mpr h)]
  unfold storeIds
  rw [List.map_map]
  refine List.map_congr_left ?_
  intro x _
  by_cases hx : x.1 = e.1
  · simp [hx]
  · simp [hx]

theorem mem_ids_upsertOne (st : Store) (e : String × MetaRec) (x : String)
    (h : x ∈ storeIds st) : x ∈ storeIds (upsertOne st e) := by
  by_cases hc : e.1 ∈ storeIds st
  · rw [storeIds_upsertOne_of_mem st e hc]; exact h
  · unfold upsertOne
    rw [if_neg (fun hcc => hc ((contains_ids_iff st e.1).mp hcc))]
    unfold storeIds at h ⊢
    rw [List.map_append]
    exact List.mem_append_left _ h

theorem self_mem_ids_upsertOne (st : Store) (e : String × MetaRec) :
    e.1 ∈ storeIds (upsertOne st e) := by
  by_cases hc : e.1 ∈ storeIds st
  · rw [storeIds_upsertOne_of_mem st e hc]; exact hc
  · unfold upsertOne
    rw [if_neg (fun hcc => hc ((contains_ids_iff st e.1).mp hcc))]
    unfold storeIds
    rw [List.map_append]
    exact List.mem_append_right _ (by simp)

theorem mem_ids_upsertMany (st : Store) (l : List (String × MetaRec)) (x : String)
    (h : x ∈ storeIds st) : x ∈ storeIds (upsertMany st l) := by
  induction l generalizing st with
  | nil => exact h
  | cons e es ih => exact ih (upsertOne st e) (mem_ids_upsertOne st e x h)

theorem ids_subset_upsertMany (st : Store) (l : List (String × MetaRec)) :
    ∀ e ∈ l, e.1 ∈ storeIds (upsertMany st l) := by
  induction l generalizing st with
  | nil => intro e he; cases he
  | cons a as ih =>
    intro e he
    rcases List.mem_cons.mp he with he | he
    · subst he
      exact mem_ids_upsertMany (upsertOne st e) as e.1 (self_mem_ids_upsertOne st e)
    · exact ih (upsertOne st a) e he

theorem storeIds_upsertMany_of_present (st : Store) (l : List (String × MetaRec))
    (h : ∀ e ∈ l, e.1 ∈ storeIds st) : storeIds (upsertMany st l) = storeIds st := by
  induction l generalizing st with
  | nil => rfl
  | cons a as ih =>
    have ha := h a (by simp)
    have hstep := storeIds_upsertOne_of_mem st a ha
    have has : ∀ e ∈ as, e.1 ∈ storeIds (upsertOne st a) := by
      intro e he
      rw [hstep]
      exact h e (by simp [he])
    calc storeIds (upsertMany (upsertOne st a) as)
        = storeIds (upsertOne st a) := ih (upsertOne st a) has
      _ = storeIds st := hstep

theorem mem_upsertOne (st : Store) (x e : String × MetaRec)
    (h : x ∈ upsertOne st e) : x ∈ st ∨ x = e := by
  unfold upsertOne at h
  split at h
  · rcases List.mem_map.mp h with ⟨y, hy, hxy⟩
    by_cases hye : y.1 = e.1
    · rw [if_pos hye] at hxy
      exact Or.inr hxy.symm
    · rw [if_neg hye] at hxy
      exact Or.inl (hxy ▸ hy)
  · rcases List.mem_append.mp h with h1 | h1
    · exact Or.inl h1
    · exact Or.inr (by simpa using h1)

theorem mem_upsertMany (st : Store) (l : List (String × MetaRec)) (x : String × MetaRec)
    (h : x ∈ upsertMany st l) : x ∈ st ∨ x ∈ l := by
  induction l generalizing st with
  | nil => exact Or.inl h
  | cons a as ih =>
    rcases ih (upsertOne st a) h with h1 | h1
    · rcases mem_upsertOne st x a h1 with h2 | h2
      · exact Or.inl h2
      · exact Or.inr (by simp [h2])
    · exact Or.inr (by simp [h1])

theorem upsertMany_append (st : Store) (l1 l2 : List (String × MetaRec)) :
    upsertMany st (l1 ++ l2) = upsertMany (upsertMany st l1) l2 := by
  unfold upsertMany
  exact List.foldl_append upsertOne st l1 l2

/-- C6: `clear_index` on a non-empty index returns the count held before
clearing and leaves the store at count 0; on an already-empty index it is
a no-op that returns 0 (so a second call returns 0). -/
theorem C6_clear_index (store : Store) :
    (clear_index store).1 = store.length
    ∧ (clear_index store).2 = []
    ∧ clear_index (clear_index store).2 = (0, []) := by
  have hemp : (clear_index store).2 = [] := by
    simp only [clear_index]
    split
    · split
      · rename_i hpos hids
        rcases store with _ | ⟨e, rest⟩
        · rfl
        · simp [storeIds] at hids
      · simp only []
        rw [List.filter_eq_nil_iff]
        intro a ha
        have hmem : a.1 ∈ storeIds store := List.mem_map.mpr ⟨a, ha, rfl⟩
        simp [List.contains, hmem]
    · rename_i hpos
      rcases store with _ | ⟨e, rest⟩
      · rfl
      · exact absurd (Nat.succ_pos rest.length) hpos
  refine ⟨?_, hemp, ?_⟩
  · simp only [clear_index]
    split <;> rfl
  · rw [hemp]; rfl

/-- C8: a search against an empty index returns the empty result list for
every query text, result count and filter expression, independently of the
vector store's query function (so no query is issued). -/
theorem C8_empty_index_search (queryFn : Nat → Option NativeFilter → List Candidate)
    (query : String) (n_results : Nat) (metadata_filters : Option NativeFilter) :
    search 0 queryFn query n_results metadata_filters = [] := rfl

/-! ## Filter extraction lemmas -/

theorem extractPathFilter_foldl (conds : List FieldCond) (r0 : List FieldCond)
    (p0 : Option String) :
    conds.foldl
      (fun acc c =>
        if isContainsCond c then (acc.1, some c.value) else (acc.1 ++ [c], acc.2))
      (r0, p0)
      = (r0 ++ conds.filter (fun c => !(isContainsCond c)), lastContainsValue p0 conds) := by
  induction conds generalizing r0 p0 with
  | nil => simp [lastContainsValue]
  | cons c cs ih =>
    by_cases hc : isContainsCond c = true
    · simp only [List.foldl_cons, hc, if_pos, List.filter_cons, Bool.not_eq_true',
        lastContainsValue]
      rw [ih]
      simp [hc, lastContainsValue]
    · simp only [List.foldl_cons, hc, if_neg, List.filter_cons, lastContainsValue]
      rw [ih]
      simp [hc, lastContainsValue, List.append_assoc]

theorem extractPathFilter_eq (conds : List FieldCond) :
    extractPathFilter conds
      = (conds.filter (fun c => !(isContainsCond c)), lastContainsValue none conds) := by
  unfold extractPathFilter
  simpa using extractPathFilter_foldl conds [] none

theorem lastContainsValue_append (p0 : Option String) (l1 l2 : List FieldCond) :
    lastContainsValue p0 (l1 ++ l2) = lastContainsValue (lastContainsValue p0 l1) l2 := by
  induction l1 generalizing p0 with
  | nil => rfl
  | cons c cs ih =>
    by_cases hc : isContainsCond c = true <;>
      simp [lastContainsValue, hc, ih]

theorem lastContainsValue_of_none (p0 : Option String) (l : List FieldCond)
    (h : ∀ c ∈ l, isContainsCond c = false) : lastContainsValue p0 l = p0 := by
  induction l with
  | nil => rfl
  | cons c cs ih =>
    have hc := h c (by simp)
    simp only [lastContainsValue, hc]
    simp only [Bool.false_eq_true, if_neg, if_false]
    exact ih (fun d hd => h d (by simp [hd]))

/-! ## Post-filter lemmas -/

theorem strContains_empty (hay : String) : strContains hay "" = true := by
  unfold strContains
  cases hay.toList <;> rfl

theorem collectResults_path_contains (s : String) (n acc : Nat) (cs : List Candidate) :
    ∀ r ∈ collectResults (some s) n acc cs, strContains r.path s = true := by
  induction cs generalizing acc with
  | nil => intro r hr; cases hr
  | cons c rest ih =>
    intro r hr
    unfold collectResults at hr
    by_cases hskip : skipByPathFilter (some s) c.meta = true
    · rw [if_pos hskip] at hr
      exact ih acc r hr
    · rw [if_neg hskip] at hr
      have hcont : strContains c.meta.relative_path s = true := by
        unfold skipByPathFilter at hskip
        by_cases hs : s = ""
        · subst hs; exact strContains_empty _
        · simp only [Bool.and_eq_true, Bool.not_eq_true', beq_eq_false_iff_ne,
            ne_eq, Bool.not_eq_true] at hskip
          rcases Classical.em (strContains c.meta.relative_path s = true) with h | h
          · exact h
          · exact absurd ⟨by simpa using hs, by simpa using h⟩ hskip
      by_cases hn : n ≤ acc + 1
      · rw [if_pos hn] at hr
        rcases List.mem_singleton.mp hr with rfl
        exact hcont
      · rw [if_neg hn] at hr
        rcases List.mem_cons.mp hr with rfl | hr
        · exact hcont
        · exact ih (acc + 1) r hr

theorem ite_empty_collect_path_contains (s : String) (n acc : Nat)
    (cands : List Candidate) (r : SearchResult)
    (hr : r ∈ (if cands.isEmpty then ([] : List SearchResult)
        else collectResults (some s) n acc cands)) :
    strContains r.path s = true := by
  revert hr
  split
  · intro hr; cases hr
  · intro hr; exact collectResults_path_contains s n acc cands r hr

/-- C2: a `relative_path contains s` condition inside an `$and` filter is
removed from the native filter passed to the vector store and re-applied
as a post-filter, so every returned result's path contains `s`; the other
field conditions are passed through unmodified (an emptied `$and` mapping
becomes no native filter at all). -/
theorem C2_contains_extracted_and_postfiltered
    (count n_results : Nat) (queryFn : Nat → Option NativeFilter → List Candidate)
    (query : String) (pre post : List FieldCond) (s : String)
    (hpre : ∀ c ∈ pre, isContainsCond c = false)
    (hpost : ∀ c ∈ post, isContainsCond c = false) :
    rewriteFilters (some (.andF (pre ++ FieldCond.mk "relative_path" "$contains" s :: post)))
      = ((if (pre ++ post).isEmpty then none else some (.andF (pre ++ post))), some s)
    ∧ ∀ r ∈ search count queryFn query n_results
        (some (.andF (pre ++ FieldCond.mk "relative_path" "$contains" s :: post))),
        strContains r.path s = true := by
  have hcontains : isContainsCond (FieldCond.mk "relative_path" "$contains" s) = true := by
    simp [isContainsCond]
  have hfilter :
      (pre ++ FieldCond.mk "relative_path" "$contains" s :: post).filter
        (fun c => !(isContainsCond c)) = pre ++ post := by
    rw [List.filter_append, List.filter_cons]
    simp only [hcontains, Bool.not_true, Bool.false_eq_true, if_neg, if_false]
    rw [List.filter_eq_self.mpr (by intro c hc; simp [hpre c hc]),
      List.filter_eq_self.mpr (by intro c hc; simp [hpost c hc])]
  have hlast :
      lastContainsValue none (pre ++ FieldCond.mk "relative_path" "$contains" s :: post)
        = some s := by
    rw [lastContainsValue_append, lastContainsValue_of_none none pre hpre]
    show lastContainsValue none (FieldCond.mk "relative_path" "$contains" s :: post) = some s
    unfold lastContainsValue
    rw [if_pos hcontains]
    exact lastContainsValue_of_none (some s) post hpost
  have hrw : rewriteFilters
      (some (.andF (pre ++ FieldCond.mk "relative_path" "$contains" s :: post)))
      = ((if (pre ++ post).isEmpty then none else some (.andF (pre ++ post))), some s) := by
    simp only [rewriteFilters, extractPathFilter_eq, hfilter, hlast]
  refine ⟨hrw, ?_⟩
  intro r hr
  unfold search at hr
  by_cases hcount : count = 0
  · rw [if_pos hcount] at hr; cases hr
  · rw [if_neg hcount] at hr
    simp only [hrw] at hr
    exact ite_empty_collect_path_contains s n_results 0 _ r hr

/-- C2 witness at a concrete filter, candidate list and query function. -/
theorem C2_witness :
    (∀ c ∈ [FieldCond.mk "source_type" "$eq" "local"], isContainsCond c = false)
    ∧ rewriteFilters (some (.andF ([FieldCond.mk "source_type" "$eq" "local"] ++
        FieldCond.mk "relative_path" "$contains" "foo" :: [])))
        = ((if (([FieldCond.mk "source_type" "$eq" "local"] ++ ([] : List FieldCond)).isEmpty)
            then none
            else some (.andF ([FieldCond.mk "source_type" "$eq" "local"] ++ []))), some "foo")
    ∧ ∀ r ∈ search 1 (fun _ _ => [⟨0, ⟨"a/foo.py", "f", false, 1, 2⟩⟩, ⟨0, ⟨"bar", "g", false, 1, 2⟩⟩])
        "q" 5 (some (.andF ([FieldCond.mk "source_type" "$eq" "local"] ++
          FieldCond.mk "relative_path" "$contains" "foo" :: []))),
        strContains r.path "foo" = true := by
  refine ⟨by decide, ?_⟩
  exact C2_contains_extracted_and_postfiltered 1 5
    (fun _ _ => [⟨0, ⟨"a/foo.py", "f", false, 1, 2⟩⟩, ⟨0, ⟨"bar", "g", false, 1, 2⟩⟩]) "q"
    [FieldCond.mk "source_type" "$eq" "local"] [] "foo" (by decide) (by decide)

/-- C9: when the `$and` list holds several `relative_path contains`
conditions, `extract_path_filter` removes all of them from the native
filter but keeps only the value of the last one encountered as the
post-filter, so earlier contains-conditions are silently dropped: a
concrete search returns a result whose path contains the last substring
but not the earlier one. -/
theorem C9_multiple_contains_last_wins :
    (∀ conds : List FieldCond,
      (extractPathFilter conds).1 = conds.filter (fun c => !(isContainsCond c)))
    ∧ (∀ conds : List FieldCond,
      (extractPathFilter conds).2 = lastContainsValue none conds)
    ∧ rewriteFilters (some (.andF [FieldCond.mk "relative_path" "$contains" "aaa",
        FieldCond.mk "relative_path" "$contains" "bbb"])) = (none, some "bbb")
    ∧ (search 1 (fun _ _ => [⟨0, ⟨"xbbb", "f", false, 1, 2⟩⟩]) "q" 5
        (some (.andF [FieldCond.mk "relative_path" "$contains" "aaa",
          FieldCond.mk "relative_path" "$contains" "bbb"]))).map (fun r => r.path) = ["xbbb"]
    ∧ strContains "xbbb" "aaa" = false := by
  refine ⟨?_, ?_, by decide, by decide, by decide⟩
  · intro conds; rw [extractPathFilter_eq]
  · intro conds; rw [extractPathFilter_eq]

/-! ## Pipeline lemmas -/

theorem le_numBatches_mul (total bsize : Nat) (hb : 0 < bsize) :
    total ≤ numBatches total bsize * bsize := by
  unfold numBatches
  have h := Nat.div_add_mod (total + bsize - 1) bsize
  have h2 : (total + bsize - 1) % bsize < bsize := Nat.mod_lt _ hb
  rw [Nat.mul_comm]
  generalize hm : bsize * ((total + bsize - 1) / bsize) = m at h
  omega

theorem toE_nil_of_append {α : Type} (toE : List α → List (String × MetaRec))
    (htoE : ∀ a b : List α, toE (a ++ b) = toE a ++ toE b) : toE [] = [] := by
  have h := htoE [] []
  simp only [List.append_nil] at h
  have hlen := congrArg List.length h
  rw [List.length_append] at hlen
  exact List.eq_nil_of_length_eq_zero (by omega)

theorem runBatchesN_none {α : Type} (bsize total : Nat)
    (toE : List α → List (String × MetaRec))
    (htoE : ∀ a b : List α, toE (a ++ b) = toE a ++ toE b) :
    ∀ (fuel : Nat) (rem : List α) (st : Store) (j y : Nat),
      rem.length ≤ fuel * bsize →
      (runBatchesN bsize total toE false none fuel rem st j y).2.1
          = upsertMany st (toE rem)
      ∧ (runBatchesN bsize total toE false none fuel rem st j y).2.2 = fuel := by
  intro fuel
  induction fuel with
  | zero =>
    intro rem st j y hlen
    have hrem : rem = [] := List.eq_nil_of_length_eq_zero (by omega)
    subst hrem
    rw [toE_nil_of_append toE htoE]
    exact ⟨rfl, rfl⟩
  | succ fuel ih =>
    intro rem st j y hlen
    have hdrop : (rem.drop bsize).length ≤ fuel * bsize := by
      rw [List.length_drop]
      have hmul : (fuel + 1) * bsize = fuel * bsize + bsize := Nat.succ_mul fuel bsize
      omega
    have hrec := ih (rem.drop bsize) (upsertMany st (toE (rem.take bsize))) (j + 1) (y + 1) hdrop
    have hflag : flagAt false none y = false := rfl
    simp only [runBatchesN, hflag, Bool.false_eq_true, if_false]
    constructor
    · show (runBatchesN bsize total toE false none fuel (rem.drop bsize)
        (upsertMany st (toE (rem.take bsize))) (j + 1) (y + 1)).2.1 = upsertMany st (toE rem)
      rw [hrec.1, ← upsertMany_append, ← htoE, List.take_append_drop]
    · show (runBatchesN bsize total toE false none fuel (rem.drop bsize)
        (upsertMany st (toE (rem.take bsize))) (j + 1) (y + 1)).2.2 + 1 = fuel + 1
      rw [hrec.2]

theorem runBatchesN_cutoff_nb {α : Type} (bsize total : Nat)
    (toE : List α → List (String × MetaRec)) (k : Nat) :
    ∀ (fuel : Nat) (rem : List α) (st : Store) (j y : Nat),
      (runBatchesN bsize total toE false (some k) fuel rem st j y).2.2
        = min fuel (k - y) := by
  intro fuel
  induction fuel with
  | zero => intro rem st j y; simp [runBatchesN]
  | succ fuel ih =>
    intro rem st j y
    by_cases hky : k ≤ y
    · have hflag : flagAt false (some k) y = true := by simp [flagAt, hky]
      simp only [runBatchesN, hflag, if_true]
      have : k - y = 0 := by omega
      simp [this]
    · have hflag : flagAt false (some k) y = false := by simp [flagAt]; omega
      simp only [runBatchesN, hflag, Bool.false_eq_true, if_false]
      show (runBatchesN bsize total toE false (some k) fuel (rem.drop bsize) _ (j + 1) (y + 1)).2.2 + 1
          = min (fuel + 1) (k - y)
      rw [ih]
      omega

theorem getLast?_cons_cons_concat (a b f : String) (l : List String) :
    (a :: b :: (l ++ [f])).getLast? = some f := by
  rw [show a :: b :: (l ++ [f]) = (a :: b :: l) ++ [f] from rfl]
  exact List.getLast?_concat _

/-! ## Full-run characterizations -/

theorem runLocalFrom_none_store (root : String) (t : FSTree) (store : Store) :
    (runLocalFrom false none root t store).store
        = upsertMany store (localEntries root t)
    ∧ (runLocalFrom false none root t store).batchesDone
        = numBatches (walkTree root t).length 128
    ∧ (runLocalFrom false none root t store).messages.getLast?
        = some (completeMsg (upsertMany store (localEntries root t)).length) := by
  have hflag1 : flagAt false none 1 = false := rfl
  have hr := runBatchesN_none 128 (walkTree root t).length
    (fun l => l.map (localEntry root)) (fun a b => List.map_append _ a b)
    (numBatches (walkTree root t).length 128) (walkTree root t) store 0 2
    (le_numBatches_mul _ _ (by omega))
  have hflag2 : ∀ y, flagAt false none y = false := fun _ => rfl
  simp only [runLocalFrom, hflag1, Bool.false_eq_true, if_false, hflag2]
  refine ⟨hr.1, hr.2, ?_⟩
  refine (getLast?_cons_cons_concat _ _ _ _).trans ?_
  rw [hr.1]
  rfl

theorem runRepoFrom_none_store (repoUrl baseUrl : String) (files : List RepoFile)
    (fetch : String → Except FetchErr (List Nat)) (now : Nat) (store : Store) :
    (runRepoFrom false none repoUrl baseUrl files fetch now store).store
        = upsertMany store
            (repoBatchEntries repoUrl baseUrl now fetch (get_repo_files_filtered files))
    ∧ (runRepoFrom false none repoUrl baseUrl files fetch now store).batchesDone
        = numBatches (get_repo_files_filtered files).length 50
    ∧ (runRepoFrom false none repoUrl baseUrl files fetch now store).messages.getLast?
        = some (completeMsg (upsertMany store
            (repoBatchEntries repoUrl baseUrl now fetch (get_repo_files_filtered files))).length) := by
  have htoE : ∀ a b : List RepoFile,
      repoBatchEntries repoUrl baseUrl now fetch (a ++ b)
        = repoBatchEntries repoUrl baseUrl now fetch a
          ++ repoBatchEntries repoUrl baseUrl now fetch b := by
    intro a b
    unfold repoBatchEntries
    exact List.filterMap_append a b _
  have hr := runBatchesN_none 50 (get_repo_files_filtered files).length
    (repoBatchEntries repoUrl baseUrl now fetch) htoE
    (numBatches (get_repo_files_filtered files).length 50) (get_repo_files_filtered files)
    store 0 2 (le_numBatches_mul _ _ (by omega))
  have hflag2 : ∀ y, flagAt false none y = false := fun _ => rfl
  simp only [runRepoFrom, hflag2, Bool.false_eq_true, if_false]
  refine ⟨hr.1, hr.2, ?_⟩
  refine (getLast?_cons_cons_concat _ _ _ _).trans ?_
  rw [hr.1]

/-- C3: ids are deterministic from the source type and path (`local::` +
path; `repo::` + repository url + `::` + path), so re-running either
indexing pipeline over the same unchanged source upserts the same id set
and reports the same item count both times. -/
theorem C3_idempotent_reindex (root : String) (t : FSTree) (store : Store)
    (repoUrl baseUrl : String) (files : List RepoFile)
    (fetch : String → Except FetchErr (List Nat)) (now : Nat) :
    ((runLocalFrom false none root t
        (runLocalFrom false none root t store).store).store.length
      = (runLocalFrom false none root t store).store.length
    ∧ storeIds (runLocalFrom false none root t
        (runLocalFrom false none root t store).store).store
      = storeIds (runLocalFrom false none root t store).store)
    ∧ ((runRepoFrom false none repoUrl baseUrl files fetch now
        (runRepoFrom false none repoUrl baseUrl files fetch now store).store).store.length
      = (runRepoFrom false none repoUrl baseUrl files fetch now store).store.length
    ∧ storeIds (runRepoFrom false none repoUrl baseUrl files fetch now
        (runRepoFrom false none repoUrl baseUrl files fetch now store).store).store
      = storeIds (runRepoFrom false none repoUrl baseUrl files fetch now store).store) := by
  have key : ∀ (s : Store) (l : List (String × MetaRec)),
      storeIds (upsertMany (upsertMany s l) l) = storeIds (upsertMany s l) :=
    fun s l => storeIds_upsertMany_of_present (upsertMany s l) l (ids_subset_upsertMany s l)
  have hlen : ∀ (s s' : Store), storeIds s = storeIds s' → s.length = s'.length := by
    intro s s' h
    have h1 := congrArg List.length h
    simpa [storeIds] using h1
  constructor
  · have h1 := (runLocalFrom_none_store root t store).1
    have h2 := (runLocalFrom_none_store root t (runLocalFrom false none root t store).store).1
    rw [h1] at h2
    have hids : storeIds (runLocalFrom false none root t
        (runLocalFrom false none root t store).store).store
        = storeIds (runLocalFrom false none root t store).store := by
      rw [h1, h2]
      exact key store (localEntries root t)
    exact ⟨hlen _ _ hids, hids⟩
  · have h1 := (runRepoFrom_none_store repoUrl baseUrl files fetch now store).1
    have h2 := (runRepoFrom_none_store repoUrl baseUrl files fetch now
        (runRepoFrom false none repoUrl baseUrl files fetch now store).store).1
    rw [h1] at h2
    have hids : storeIds (runRepoFrom false none repoUrl baseUrl files fetch now
        (runRepoFrom false none repoUrl baseUrl files fetch now store).store).store
        = storeIds (runRepoFrom false none repoUrl baseUrl files fetch now store).store := by
      rw [h1, h2]
      exact key store (repoBatchEntries repoUrl baseUrl now fetch (get_repo_files_filtered files))
    exact ⟨hlen _ _ hids, hids⟩

/-! ## Cancelled-run characterizations -/

theorem runLocalFrom_le1 (root : String) (t : FSTree) (store : Store) (k : Nat)
    (hk : k ≤ 1) :
    runLocalFrom false (some k) root t store
      = { messages := ["Scanning directories...", cancelScanMsg store.length],
          store := store, batchesDone := 0 } := by
  unfold runLocalFrom
  rw [if_pos (by simp [flagAt, hk])]

theorem runLocalFrom_ge2 (root : String) (t : FSTree) (store : Store) (k : Nat)
    (hk : 2 ≤ k) :
    runLocalFrom false (some k) root t store
      = (let r := runBatchesN 128 (walkTree root t).length (fun l => l.map (localEntry root))
            false (some k) (numBatches (walkTree root t).length 128) (walkTree root t) store 0 2
         { messages := "Scanning directories..." :: scanDoneMsg (walkTree root t).length ::
             r.1 ++ [if flagAt false (some k) (2 + r.2.2) then cancelDoneMsg r.2.1.length
                     else completeMsg r.2.1.length],
           store := r.2.1, batchesDone := r.2.2 }) := by
  unfold runLocalFrom
  rw [if_neg (by simp [flagAt]; omega)]

def isCancelledMsg (count : Nat) (m : String) : Bool :=
  m == cancelScanMsg count || m == cancelDoneMsg count

theorem map_isCancelled_getLast (a b : String) (l : List String) (n : Nat) :
    ((a :: b :: (l ++ [cancelDoneMsg n])).getLast?).map (isCancelledMsg n) = some true := by
  rw [show a :: b :: (l ++ [cancelDoneMsg n]) = (a :: b :: l) ++ [cancelDoneMsg n] from rfl,
    List.getLast?_concat]
  simp [isCancelledMsg]

/-- C10: `index_directory` starts by resetting the shared cancellation
flag, so a `cancel_indexing` issued before the run begins never stops the
new run (it completes all its batches and ends with the complete message),
while invoking the pipeline directly with the stale flag still set would
cancel immediately; a cancel observed at a suspension point of the new run
(cutoff 2, i.e. right after the scan messages) does take effect. -/
theorem C10_reset_cancel_flag (pre : Bool) (root : String) (t : FSTree) (store : Store) :
    ((index_directory_local pre none root t store).batchesDone
        = numBatches (walkTree root t).length 128
    ∧ (index_directory_local pre none root t store).messages.getLast?
        = some (completeMsg (index_directory_local pre none root t store).store.length))
    ∧ (∀ c : Option Nat, index_directory_local pre c root t store
        = runLocalFrom false c root t store)
    ∧ (runLocalFrom true none root t store).messages.getLast?
        = some (cancelScanMsg store.length)
    ∧ (index_directory_local pre (some 2) root t store).batchesDone = 0
    ∧ (index_directory_local pre (some 2) root t store).messages.getLast?
        = some (cancelDoneMsg (index_directory_local pre (some 2) root t store).store.length) := by
  have hnone := runLocalFrom_none_store root t store
  refine ⟨⟨?_, ?_⟩, fun c => rfl, ?_, ?_, ?_⟩
  · exact hnone.2.1
  · show (runLocalFrom false none root t store).messages.getLast?
        = some (completeMsg (runLocalFrom false none root t store).store.length)
    rw [hnone.2.2, hnone.1]
  · unfold runLocalFrom
    rw [if_pos (by simp [flagAt])]
    rfl
  · show (runLocalFrom false (some 2) root t store).batchesDone = 0
    rw [runLocalFrom_ge2 root t store 2 (by omega)]
    simp only []
    rw [runBatchesN_cutoff_nb]
    omega
  · show (runLocalFrom false (some 2) root t store).messages.getLast?
        = some (cancelDoneMsg (runLocalFrom false (some 2) root t store).store.length)
    rw [runLocalFrom_ge2 root t store 2 (by omega)]
    simp only []
    have hnb : (runBatchesN 128 (walkTree root t).length (fun l => l.map (localEntry root))
        false (some 2) (numBatches (walkTree root t).length 128) (walkTree root t) store 0 2).2.2
        = 0 := by rw [runBatchesN_cutoff_nb]; omega
    rw [hnb]
    have hflag : flagAt false (some 2) (2 + 0) = true := by simp [flagAt]
    rw [if_pos hflag]
    exact getLast?_cons_cons_concat _ _ _ _

/-- C4: with the cooperative flag modelled as a cutoff at suspension
index k (the flag is read at the top of the enumeration loop, after the
first yield, and at the top of each batch loop, after 2 + j yields), a
flag set before the run's last check stops the pipeline after the
in-flight batch — exactly min(B, k - 2) batches are processed — and the
run ends with a terminal "cancelled" status message reporting the current
index size; the run functions are total, so no exception is raised. -/
theorem C4_cancellation (root : String) (t : FSTree) (store : Store)
    (repoUrl baseUrl : String) (files : List RepoFile)
    (fetch : String → Except FetchErr (List Nat)) (now : Nat) (k₁ k₂ : Nat)
    (hk₁ : k₁ ≤ 2 + numBatches (walkTree root t).length 128)
    (hk₂ : k₂ ≤ 2 + numBatches (get_repo_files_filtered files).length 50) :
    ((runLocalFrom false (some k₁) root t store).batchesDone
        = min (numBatches (walkTree root t).length 128) (k₁ - 2)
    ∧ ((runLocalFrom false (some k₁) root t store).messages.getLast?).map
        (isCancelledMsg (runLocalFrom false (some k₁) root t store).store.length)
        = some true)
    ∧ ((runRepoFrom false (some k₂) repoUrl baseUrl files fetch now store).batchesDone
        = min (numBatches (get_repo_files_filtered files).length 50) (k₂ - 2)
    ∧ ((runRepoFrom false (some k₂) repoUrl baseUrl files fetch now store).messages.getLast?).map
        (isCancelledMsg
          (runRepoFrom false (some k₂) repoUrl baseUrl files fetch now store).store.length)
        = some true) := by
  constructor
  · by_cases hk : k₁ ≤ 1
    · rw [runLocalFrom_le1 root t store k₁ hk]
      constructor
      · show 0 = min (numBatches (walkTree root t).length 128) (k₁ - 2)
        omega
      · show (some (cancelScanMsg store.length)).map (isCancelledMsg store.length) = some true
        simp [isCancelledMsg]
    · rw [runLocalFrom_ge2 root t store k₁ (by omega)]
      simp only []
      have hnb : (runBatchesN 128 (walkTree root t).length (fun l => l.map (localEntry root))
          false (some k₁) (numBatches (walkTree root t).length 128) (walkTree root t) store 0 2).2.2
          = min (numBatches (walkTree root t).length 128) (k₁ - 2) :=
        runBatchesN_cutoff_nb 128 (walkTree root t).length _ k₁ _ (walkTree root t) store 0 2
      rw [hnb]
      have hflag : flagAt false (some k₁)
          (2 + min (numBatches (walkTree root t).length 128) (k₁ - 2)) = true := by
        simp only [flagAt, Bool.false_or, decide_eq_true_eq]
        omega
      rw [if_pos hflag]
      exact ⟨rfl, map_isCancelled_getLast _ _ _ _⟩
  · unfold runRepoFrom
    simp only []
    have hnb : (runBatchesN 50 (get_repo_files_filtered files).length
        (repoBatchEntries repoUrl baseUrl now fetch) false (some k₂)
        (numBatches (get_repo_files_filtered files).length 50) (get_repo_files_filtered files)
        store 0 2).2.2
        = min (numBatches (get_repo_files_filtered files).length 50) (k₂ - 2) :=
      runBatchesN_cutoff_nb 50 (get_repo_files_filtered files).length _ k₂ _ _ store 0 2
    rw [hnb]
    have hflag : flagAt false (some k₂)
        (2 + min (numBatches (get_repo_files_filtered files).length 50) (k₂ - 2)) = true := by
      simp only [flagAt, Bool.false_or, decide_eq_true_eq]
      omega
    rw [if_pos hflag]
    exact ⟨rfl, map_isCancelled_getLast _ _ _ _⟩

/-- C4 witness: a concrete tree with one entry and an empty repository
listing, cancelled right after the scan messages (cutoff 2). -/
theorem C4_cancellation_witness :
    (2 ≤ 2 + numBatches (walkTree "r"
        (FSTree.dir "r" 0 0 (FSForest.cons (FSTree.file "a.py" 3 7) FSForest.nil))).length 128
    ∧ 2 ≤ 2 + numBatches (get_repo_files_filtered []).length 50)
    ∧ (((runLocalFrom false (some 2) "r"
          (FSTree.dir "r" 0 0 (FSForest.cons (FSTree.file "a.py" 3 7) FSForest.nil))
          []).batchesDone
        = min (numBatches (walkTree "r"
            (FSTree.dir "r" 0 0 (FSForest.cons (FSTree.file "a.py" 3 7) FSForest.nil))).length 128)
            (2 - 2)
    ∧ ((runLocalFrom false (some 2) "r"
          (FSTree.dir "r" 0 0 (FSForest.cons (FSTree.file "a.py" 3 7) FSForest.nil))
          []).messages.getLast?).map
        (isCancelledMsg (runLocalFrom false (some 2) "r"
          (FSTree.dir "r" 0 0 (FSForest.cons (FSTree.file "a.py" 3 7) FSForest.nil))
          []).store.length)
        = some true)
    ∧ ((runRepoFrom false (some 2) "u" "b" [] (fun _ => Except.ok []) 0 []).batchesDone
        = min (numBatches (get_repo_files_filtered []).length 50) (2 - 2)
    ∧ ((runRepoFrom false (some 2) "u" "b" [] (fun _ => Except.ok []) 0
          []).messages.getLast?).map
        (isCancelledMsg
          (runRepoFrom false (some 2) "u" "b" [] (fun _ => Except.ok []) 0 []).store.length)
        = some true)) :=
  ⟨⟨by omega, by omega⟩,
    C4_cancellation "r" (FSTree.dir "r" 0 0 (FSForest.cons (FSTree.file "a.py" 3 7) FSForest.nil))
      [] "u" "b" [] (fun _ => Except.ok []) 0 2 2 (by omega) (by omega)⟩

/-! ## Result-shaping lemmas for `search` -/

theorem collectResults_sublist (pf : Option String) (n : Nat) :
    ∀ (cs : List Candidate) (acc : Nat),
      List.Sublist (collectResults pf n acc cs) (cs.map mkResult) := by
  intro cs
  induction cs with
  | nil => intro acc; simp [collectResults]
  | cons c rest ih =>
    intro acc
    unfold collectResults
    rw [List.map_cons]
    by_cases hskip : skipByPathFilter pf c.meta = true
    · rw [if_pos hskip]
      exact List.Sublist.cons _ (ih acc)
    · rw [if_neg hskip]
      by_cases hn : n ≤ acc + 1
      · rw [if_pos hn]
        exact List.Sublist.cons₂ _ (List.nil_sublist _)
      · rw [if_neg hn]
        exact List.Sublist.cons₂ _ (ih (acc + 1))

theorem collectResults_length (pf : Option String) (n : Nat) :
    ∀ (cs : List Candidate) (acc : Nat), acc < n →
      (collectResults pf n acc cs).length ≤ n - acc := by
  intro cs
  induction cs with
  | nil => intro acc hacc; simp [collectResults]
  | cons c rest ih =>
    intro acc hacc
    unfold collectResults
    by_cases hskip : skipByPathFilter pf c.meta = true
    · rw [if_pos hskip]
      exact ih acc hacc
    · rw [if_neg hskip]
      by_cases hn : n ≤ acc + 1
      · rw [if_pos hn]
        simp only [List.length_singleton]
        omega
      · rw [if_neg hn]
        have hrec := ih (acc + 1) (by omega)
        simp only [List.length_cons]
        omega

/-- C5: on a non-empty index, `search` asks the store's query function for
`min(n * 5, count)` candidates; assuming the store honours the requested
candidate count and returns candidates in ascending distance order, the
output is at most `n` results, is an in-order sublist of the candidates
mapped through result shaping (store ranking order preserved), and each
result's similarity is exactly `1 - distance` (no re-clamping), hence the
output is sorted by descending similarity. -/
theorem C5_overfetch_order_similarity (count n_results : Nat)
    (queryFn : Nat → Option NativeFilter → List Candidate) (query : String)
    (mf : Option NativeFilter)
    (hcount : 0 < count)
    (hlen : (queryFn (min (n_results * 5) count) (rewriteFilters mf).1).length
        ≤ min (n_results * 5) count)
    (hsorted : (queryFn (min (n_results * 5) count) (rewriteFilters mf).1).Pairwise
        (fun a b => a.dist ≤ b.dist)) :
    (search count queryFn query n_results mf).length ≤ n_results
    ∧ List.Sublist (search count queryFn query n_results mf)
        ((queryFn (min (n_results * 5) count) (rewriteFilters mf).1).map mkResult)
    ∧ (search count queryFn query n_results mf).Pairwise
        (fun a b => b.similarity ≤ a.similarity) := by
  have hsearch : search count queryFn query n_results mf
      = (if (queryFn (min (n_results * 5) count) (rewriteFilters mf).1).isEmpty then []
         else collectResults (rewriteFilters mf).2 n_results 0
           (queryFn (min (n_results * 5) count) (rewriteFilters mf).1)) := by
    unfold search
    rw [if_neg (by omega)]
  by_cases hemp : (queryFn (min (n_results * 5) count) (rewriteFilters mf).1).isEmpty = true
  · rw [hsearch, if_pos hemp]
    exact ⟨by simp, List.nil_sublist _, List.Pairwise.nil⟩
  · rw [hsearch, if_neg hemp]
    have hsub := collectResults_sublist (rewriteFilters mf).2 n_results
      (queryFn (min (n_results * 5) count) (rewriteFilters mf).1) 0
    refine ⟨?_, hsub, ?_⟩
    · rcases Nat.eq_zero_or_pos n_results with hn | hn
      · exfalso
        apply hemp
        rw [List.isEmpty_iff, ← List.length_eq_zero]
        have : min (n_results * 5) count = 0 := by omega
        omega
      · have := collectResults_length (rewriteFilters mf).2 n_results
          (queryFn (min (n_results * 5) count) (rewriteFilters mf).1) 0 hn
        omega
    · have hmap : ((queryFn (min (n_results * 5) count) (rewriteFilters mf).1).map
          mkResult).Pairwise (fun a b => b.similarity ≤ a.similarity) := by
        rw [List.pairwise_map]
        refine hsorted.imp ?_
        intro a b h
        show (mkResult b).similarity ≤ (mkResult a).similarity
        simp only [mkResult]
        linarith
      exact List.Pairwise.sublist hsub hmap

/-- C5 witness: one candidate at distance 0, count 1 and n 1. -/
theorem C5_witness :
    (0 < 1
    ∧ ((fun k (_ : Option NativeFilter) =>
        ([⟨0, ⟨"a", "f", false, 1, 2⟩⟩] : List Candidate).take k) (min (1 * 5) 1)
          (rewriteFilters none).1).length ≤ min (1 * 5) 1)
    ∧ ((search 1 (fun k _ => ([⟨0, ⟨"a", "f", false, 1, 2⟩⟩] : List Candidate).take k)
          "q" 1 none).length ≤ 1
    ∧ List.Sublist (search 1 (fun k _ => ([⟨0, ⟨"a", "f", false, 1, 2⟩⟩] : List Candidate).take k)
          "q" 1 none)
        (((fun k (_ : Option NativeFilter) =>
            ([⟨0, ⟨"a", "f", false, 1, 2⟩⟩] : List Candidate).take k) (min (1 * 5) 1)
          (rewriteFilters none).1).map mkResult)
    ∧ (search 1 (fun k _ => ([⟨0, ⟨"a", "f", false, 1, 2⟩⟩] : List Candidate).take k)
          "q" 1 none).Pairwise (fun a b => b.similarity ≤ a.similarity)) :=
  ⟨⟨by decide, by decide⟩,
    C5_overfetch_order_similarity 1 1
      (fun k _ => ([⟨0, ⟨"a", "f", false, 1, 2⟩⟩] : List Candidate).take k) "q" none
      (by decide) (by decide)
      (by simp)⟩

/-! ## Remote fetch lemmas -/

theorem accumulateChunks_some (maxSize : Nat) :
    ∀ (chunks : List (List Nat)) (acc r : List Nat),
      accumulateChunks maxSize chunks acc = some r → r = acc ++ chunks.flatten := by
  intro chunks
  induction chunks with
  | nil =>
    intro acc r h
    simp only [accumulateChunks, Option.some.injEq] at h
    simp [← h]
  | cons c cs ih =>
    intro acc r h
    simp only [accumulateChunks] at h
    split at h
    · cases h
    · have := ih (acc ++ c) r h
      rw [this, List.flatten_cons, List.append_assoc]

theorem accumulateChunks_some_le (maxSize : Nat) :
    ∀ (chunks : List (List Nat)) (acc r : List Nat), acc.length ≤ maxSize →
      accumulateChunks maxSize chunks acc = some r → r.length ≤ maxSize := by
  intro chunks
  induction chunks with
  | nil =>
    intro acc r hacc h
    simp only [accumulateChunks, Option.some.injEq] at h
    rw [← h]
    exact hacc
  | cons c cs ih =>
    intro acc r hacc h
    simp only [accumulateChunks] at h
    split at h
    · cases h
    · rename_i hle
      exact ih (acc ++ c) r (by omega) h

theorem accumulateChunks_oversize (maxSize : Nat) (chunks : List (List Nat))
    (h : maxSize < (chunks.flatten).length) :
    accumulateChunks maxSize chunks [] = none := by
  cases haccum : accumulateChunks maxSize chunks [] with
  | none => rfl
  | some content =>
    have h1 := accumulateChunks_some maxSize chunks [] content haccum
    have h2 := accumulateChunks_some_le maxSize chunks [] content (by simp) haccum
    rw [h1] at h2
    simp only [List.nil_append] at h2
    omega

theorem gfc_stream_eq (chunks : List (List Nat)) (maxSize : Nat) :
    get_remote_file_content none chunks maxSize
      = match accumulateChunks maxSize chunks [] with
        | none => .error .tooLargeStream
        | some content =>
          if (content.take 1024).contains 0 then .error .binaryFile else .ok content := rfl

theorem gfc_header_eq (l : Nat) (chunks : List (List Nat)) (maxSize : Nat) :
    get_remote_file_content (some l) chunks maxSize
      = if maxSize < l then .error .tooLargeHeader
        else
          match accumulateChunks maxSize chunks [] with
          | none => .error .tooLargeStream
          | some content =>
            if (content.take 1024).contains 0 then .error .binaryFile else .ok content := rfl

theorem gfc_oversize (hdr : Option Nat) (chunks : List (List Nat)) (maxSize : Nat)
    (h : maxSize < (chunks.flatten).length) :
    fetchOk (get_remote_file_content hdr chunks maxSize) = false := by
  cases hdr with
  | none =>
    rw [gfc_stream_eq, accumulateChunks_oversize maxSize chunks h]
    rfl
  | some l =>
    rw [gfc_header_eq]
    by_cases hl : maxSize < l
    · rw [if_pos hl]
      rfl
    · rw [if_neg hl, accumulateChunks_oversize maxSize chunks h]
      rfl

theorem gfc_header_oversize (l : Nat) (chunks : List (List Nat)) (maxSize : Nat)
    (h : maxSize < l) :
    fetchOk (get_remote_file_content (some l) chunks maxSize) = false := by
  rw [gfc_header_eq, if_pos h]
  rfl

theorem gfc_null_byte (hdr : Option Nat) (chunks : List (List Nat)) (maxSize : Nat)
    (h : ((chunks.flatten).take 1024).contains 0 = true) :
    fetchOk (get_remote_file_content hdr chunks maxSize) = false := by
  cases hdr with
  | none =>
    rw [gfc_stream_eq]
    cases haccum : accumulateChunks maxSize chunks [] with
    | none => rfl
    | some content =>
      have h1 := accumulateChunks_some maxSize chunks [] content haccum
      simp only [List.nil_append] at h1
      subst h1
      show fetchOk (if ((chunks.flatten).take 1024).contains 0 = true
        then (Except.error FetchErr.binaryFile : Except FetchErr (List Nat))
        else Except.ok chunks.flatten) = false
      rw [if_pos h]
      rfl
  | some l =>
    rw [gfc_header_eq]
    by_cases hl : maxSize < l
    · rw [if_pos hl]; rfl
    · rw [if_neg hl]
      cases haccum : accumulateChunks maxSize chunks [] with
      | none => rfl
      | some content =>
        have h1 := accumulateChunks_some maxSize chunks [] content haccum
        simp only [List.nil_append] at h1
        subst h1
        show fetchOk (if ((chunks.flatten).take 1024).contains 0 = true
          then (Except.error FetchErr.binaryFile : Except FetchErr (List Nat))
          else Except.ok chunks.flatten) = false
        rw [if_pos h]
        rfl

theorem mem_repoBatchEntries (repoUrl baseUrl : String) (now : Nat)
    (fetch : String → Except FetchErr (List Nat)) (l : List RepoFile)
    (e : String × MetaRec) (h : e ∈ repoBatchEntries repoUrl baseUrl now fetch l) :
    ∃ f ∈ l, fetchOk (fetch f.path) = true ∧ e.2.relative_path = f.path
      ∧ e.1 = repoFileId repoUrl f.path := by
  unfold repoBatchEntries at h
  rcases List.mem_filterMap.mp h with ⟨f, hf, hfe⟩
  refine ⟨f, hf, ?_⟩
  cases hfetch : fetch f.path with
  | error err => rw [hfetch] at hfe; cases hfe
  | ok content =>
    rw [hfetch] at hfe
    simp only [Option.some.injEq] at hfe
    subst hfe
    exact ⟨by simp [fetchOk], rfl, rfl⟩

theorem repoBatchEntries_of_ok (repoUrl baseUrl : String) (now : Nat)
    (fetch : String → Except FetchErr (List Nat)) (l : List RepoFile) (f : RepoFile)
    (hf : f ∈ l) (hok : fetchOk (fetch f.path) = true) :
    ∃ e ∈ repoBatchEntries repoUrl baseUrl now fetch l, e.1 = repoFileId repoUrl f.path := by
  cases hfetch : fetch f.path with
  | error err => rw [hfetch] at hok; cases hok
  | ok content =>
    refine ⟨(repoFileId repoUrl f.path,
      { relative_path := f.path, full_path := baseUrl ++ f.path, is_dir := false,
        size_bytes := f.size, modified_time := now }), ?_, rfl⟩
    unfold repoBatchEntries
    exact List.mem_filterMap.mpr ⟨f, hf, by rw [hfetch]⟩

/-- C7: a remote file whose content exceeds the byte cap (default
1,000,000 bytes — detected via the content-length header or while
streaming) or whose first 1024 bytes hold a null byte yields a fetch
error; during repository indexing a file whose fetch errors is skipped
(no entry with its path is added), while the run still completes — the
terminal message is the complete message and every successfully fetched
kept file is present in the index. -/
theorem C7_remote_fetch_skips (maxSize : Nat) (repoUrl baseUrl : String)
    (files : List RepoFile) (fetch : String → Except FetchErr (List Nat)) (now : Nat)
    (store : Store) (p : String)
    (hfp : fetchOk (fetch p) = false)
    (hstore : ∀ e ∈ store, e.2.relative_path ≠ p) :
    DEFAULT_MAX_SIZE = 1000000
    ∧ (∀ (hdr : Option Nat) (chunks : List (List Nat)),
        maxSize < (chunks.flatten).length →
        fetchOk (get_remote_file_content hdr chunks maxSize) = false)
    ∧ (∀ (l : Nat) (chunks : List (List Nat)), maxSize < l →
        fetchOk (get_remote_file_content (some l) chunks maxSize) = false)
    ∧ (∀ (hdr : Option Nat) (chunks : List (List Nat)),
        ((chunks.flatten).take 1024).contains 0 = true →
        fetchOk (get_remote_file_content hdr chunks maxSize) = false)
    ∧ (∀ e ∈ (runRepoFrom false none repoUrl baseUrl files fetch now store).store,
        e.2.relative_path ≠ p)
    ∧ (runRepoFrom false none repoUrl baseUrl files fetch now store).messages.getLast?
        = some (completeMsg
            (runRepoFrom false none repoUrl baseUrl files fetch now store).store.length)
    ∧ (∀ f ∈ get_repo_files_filtered files, fetchOk (fetch f.path) = true →
        repoFileId repoUrl f.path
          ∈ storeIds (runRepoFrom false none repoUrl baseUrl files fetch now store).store) := by
  have hrun := runRepoFrom_none_store repoUrl baseUrl files fetch now store
  refine ⟨rfl,
    fun hdr chunks h => gfc_oversize hdr chunks maxSize h,
    fun l chunks h => gfc_header_oversize l chunks maxSize h,
    fun hdr chunks h => gfc_null_byte hdr chunks maxSize h,
    ?_, ?_, ?_⟩
  · intro e he
    rw [hrun.1] at he
    rcases mem_upsertMany store _ e he with h1 | h1
    · exact hstore e h1
    · rcases mem_repoBatchEntries repoUrl baseUrl now fetch _ e h1 with ⟨f, _, hok, hrel, _⟩
      intro hcontra
      rw [hrel] at hcontra
      rw [hcontra] at hok
      rw [hok] at hfp
      cases hfp
  · rw [hrun.2.2, hrun.1]
  · intro f hf hok
    rcases repoBatchEntries_of_ok repoUrl baseUrl now fetch
      (get_repo_files_filtered files) f hf hok with ⟨e, he, hid⟩
    rw [hrun.1, ← hid]
    exact ids_subset_upsertMany store _ e he

/-- C7 witness: a two-file repository where fetching `bad.py` errors and
fetching `good.py` succeeds, plus concrete oversize/header/null-byte
fetches against a cap of 2 bytes. -/
theorem C7_remote_fetch_skips_witness :
    (fetchOk ((fun s => if s == "bad.py" then Except.error FetchErr.binaryFile
        else Except.ok [1]) "bad.py") = false)
    ∧ fetchOk (get_remote_file_content none [[1, 1, 1]] 2) = false
    ∧ fetchOk (get_remote_file_content (some 5) [[1]] 2) = false
    ∧ fetchOk (get_remote_file_content none [[0]] 2) = false
    ∧ (∀ e ∈ (runRepoFrom false none "u" "b" [⟨"bad.py", 1⟩, ⟨"good.py", 1⟩]
        (fun s => if s == "bad.py" then Except.error FetchErr.binaryFile
          else Except.ok [1]) 0 []).store,
        e.2.relative_path ≠ "bad.py")
    ∧ (runRepoFrom false none "u" "b" [⟨"bad.py", 1⟩, ⟨"good.py", 1⟩]
        (fun s => if s == "bad.py" then Except.error FetchErr.binaryFile
          else Except.ok [1]) 0 []).messages.getLast?
        = some (completeMsg (runRepoFrom false none "u" "b" [⟨"bad.py", 1⟩, ⟨"good.py", 1⟩]
            (fun s => if s == "bad.py" then Except.error FetchErr.binaryFile
              else Except.ok [1]) 0 []).store.length)
    ∧ repoFileId "u" "good.py"
        ∈ storeIds (runRepoFrom false none "u" "b" [⟨"bad.py", 1⟩, ⟨"good.py", 1⟩]
            (fun s => if s == "bad.py" then Except.error FetchErr.binaryFile
              else Except.ok [1]) 0 []).store := by
  have h := C7_remote_fetch_skips 2 "u" "b" [⟨"bad.py", 1⟩, ⟨"good.py", 1⟩]
    (fun s => if s == "bad.py" then Except.error FetchErr.binaryFile else Except.ok [1]) 0 []
    "bad.py" (by decide) (by intro e he; cases he)
  obtain ⟨_, hB, hC, hD, hE, hF, hG⟩ := h
  exact ⟨by decide, hB none [[1, 1, 1]] (by decide), hC 5 [[1]] (by decide),
    hD none [[0]] (by decide), hE, hF,
    hG ⟨"good.py", 1⟩ (by decide) (by decide)⟩

/-! ## Walk and exclusion lemmas for the amended exclusion claim -/

theorem FSForest.toList_append : ∀ (as bs : FSForest),
    (as.append bs).toList = as.toList ++ bs.toList
  | .nil, bs => rfl
  | .cons c cs, bs => by
    show c :: (cs.append bs).toList = (c :: cs.toList) ++ bs.toList
    rw [FSForest.toList_append cs bs]
    rfl

theorem walkForest_append (root : String) : ∀ (as bs : FSForest),
    walkForest root (as.append bs) = walkForest root as ++ walkForest root bs
  | .nil, bs => rfl
  | .cons c cs, bs => by
    show ((if keptDir c then walkTree (pathJoin root c.name) c else [])
        ++ walkForest root (cs.append bs))
      = ((if keptDir c then walkTree (pathJoin root c.name) c else [])
        ++ walkForest root cs) ++ walkForest root bs
    rw [walkForest_append root cs bs, List.append_assoc]

theorem walkTree_dir_eq (root n : String) (s m : Nat) (cs : FSForest) :
    walkTree root (.dir n s m cs) = levelEntries root cs.toList ++ walkForest root cs := rfl

theorem png_suffix_excluded (p : String) (h : strLower (pathSuffix p) = ".png") :
    is_excluded p = true := by
  simp only [is_excluded]
  have hb : EXCLUDE_EXTENSIONS.contains (strLower (pathSuffix p)) = true := by
    rw [h]; decide
  rw [hb]
  simp

theorem node_modules_pattern_excluded (p : String)
    (h : strContains (pathAsPosix p ++ "/") "node_modules/" = true) :
    is_excluded p = true := by
  simp only [is_excluded]
  by_cases hA : (EXCLUDE_FILENAMES.contains (strLower (pathName p))
      || EXCLUDE_EXTENSIONS.contains (strLower (pathSuffix p))) = true
  · rw [if_pos hA]
  · rw [if_neg hA]
    exact List.any_eq_true.mpr ⟨"node_modules/", by decide, h⟩

/-- C1 counterexample: the claim fails on the code.  A completed local
indexing run over a tree that contains a file named `.env` leaves that
file in the index (local indexing applies no file-level exclusion), and
the repository exclusion filter also keeps a file named exactly `.env`
(its Python `Path` suffix is empty, so the `.env` entry of the extension
denylist does not match it). -/
theorem C1_counterexample :
    storeIds (runLocalFrom false none "r"
        (FSTree.dir "r" 0 0 (FSForest.cons (FSTree.file ".env" 3 7) FSForest.nil)) []).store
      = ["local::r/.env"]
    ∧ ((runLocalFrom false none "r"
        (FSTree.dir "r" 0 0 (FSForest.cons (FSTree.file ".env" 3 7) FSForest.nil)) []).store.map
          (fun e => e.2.relative_path)) = [".env"]
    ∧ (runLocalFrom false none "r"
        (FSTree.dir "r" 0 0 (FSForest.cons (FSTree.file ".env" 3 7) FSForest.nil))
        []).messages.getLast? = some (completeMsg 1)
    ∧ is_excluded ".env" = false
    ∧ ((get_repo_files_filtered [⟨".env", 5⟩]).map (fun f => f.path)) = [".env"] := by
  decide

/-- C1 amended: exclusion is applied only by the repository listing
filter.  A path whose (lower-cased Python) suffix is `.png` is excluded,
as is any path matching the `node_modules/` pattern, so after a
repository run over a store free of such paths the index still holds none
of them.  In local runs only the fixed directory names are pruned: a
directory named `node_modules` together with its entire subtree
contributes nothing to the enumeration (and hence nothing to the run),
while `.env` is excluded only as an extension (`config.env`), not as the
literal filename `.env`. -/
theorem C1_amended (p1 p2 : String) (root n : String) (s m : Nat)
    (as bs : FSForest) (sub : FSTree) (repoUrl baseUrl : String)
    (files : List RepoFile) (fetch : String → Except FetchErr (List Nat)) (now : Nat)
    (store : Store) (c : Option Nat)
    (h1 : strLower (pathSuffix p1) = ".png")
    (h2 : strContains (pathAsPosix p2 ++ "/") "node_modules/" = true)
    (hdir : sub.isDir = true)
    (hname : sub.name = "node_modules")
    (hclean : ∀ e ∈ store, is_excluded e.2.relative_path = false) :
    is_excluded p1 = true
    ∧ is_excluded p2 = true
    ∧ (∀ e ∈ (runRepoFrom false none repoUrl baseUrl files fetch now store).store,
        is_excluded e.2.relative_path = false)
    ∧ walkTree root (.dir n s m (as.append (.cons sub bs)))
        = walkTree root (.dir n s m (as.append bs))
    ∧ runLocalFrom false c root (.dir n s m (as.append (.cons sub bs))) store
        = runLocalFrom false c root (.dir n s m (as.append bs)) store
    ∧ is_excluded "config.env" = true
    ∧ is_excluded ".env" = false := by
  have hkept : keptDir sub = false := by
    unfold keptDir
    rw [hdir, hname]
    decide
  have hwalk : walkTree root (.dir n s m (as.append (.cons sub bs)))
      = walkTree root (.dir n s m (as.append bs)) := by
    rw [walkTree_dir_eq, walkTree_dir_eq]
    rw [FSForest.toList_append, FSForest.toList_append]
    rw [walkForest_append, walkForest_append]
    rw [show FSForest.toList (.cons sub bs) = sub :: bs.toList from rfl]
    rw [show walkForest root (.cons sub bs)
        = (if keptDir sub then walkTree (pathJoin root sub.name) sub else [])
          ++ walkForest root bs from rfl]
    rw [hkept]
    simp only [Bool.false_eq_true, if_false, List.nil_append]
    congr 1
    unfold levelEntries fileChildren keptDirs
    rw [List.filter_append, List.filter_append, List.filter_append, List.filter_append,
      List.filter_cons, List.filter_cons]
    rw [if_neg (show ¬ ((!sub.isDir) = true) by rw [hdir]; simp),
      if_neg (show ¬ (keptDir sub = true) by rw [hkept]; simp)]
  refine ⟨png_suffix_excluded p1 h1, node_modules_pattern_excluded p2 h2, ?_, hwalk, ?_,
    by decide, by decide⟩
  · intro e he
    rw [(runRepoFrom_none_store repoUrl baseUrl files fetch now store).1] at he
    rcases mem_upsertMany store _ e he with h | h
    · exact hclean e h
    · rcases mem_repoBatchEntries repoUrl baseUrl now fetch _ e h with ⟨f, hf, _, hrel, _⟩
      rw [hrel]
      have := List.mem_filter.mp hf
      simpa using this.2
  · unfold runLocalFrom
    rw [hwalk]

/-- C1 amended witness: a `.png` file, a `node_modules/` path, a
repository run over one kept file from an empty store, and a local tree
whose `node_modules` directory (with one file inside) contributes
nothing. -/
theorem C1_amended_witness :
    is_excluded "img/a.png" = true
    ∧ is_excluded "node_modules/x.js" = true
    ∧ (∀ e ∈ (runRepoFrom false none "u" "b" [⟨"x.py", 1⟩]
        (fun _ => Except.ok []) 0 []).store,
        is_excluded e.2.relative_path = false)
    ∧ walkTree "r" (.dir "r" 0 0 ((FSForest.nil).append
        (.cons (FSTree.dir "node_modules" 0 0
          (FSForest.cons (FSTree.file "evil.js" 1 1) FSForest.nil))
          (FSForest.cons (FSTree.file "a.py" 1 1) FSForest.nil))))
        = walkTree "r" (.dir "r" 0 0 ((FSForest.nil).append
            (FSForest.cons (FSTree.file "a.py" 1 1) FSForest.nil)))
    ∧ runLocalFrom false none "r" (.dir "r" 0 0 ((FSForest.nil).append
        (.cons (FSTree.dir "node_modules" 0 0
          (FSForest.cons (FSTree.file "evil.js" 1 1) FSForest.nil))
          (FSForest.cons (FSTree.file "a.py" 1 1) FSForest.nil)))) []
        = runLocalFrom false none "r" (.dir "r" 0 0 ((FSForest.nil).append
            (FSForest.cons (FSTree.file "a.py" 1 1) FSForest.nil))) []
    ∧ is_excluded "config.env" = true
    ∧ is_excluded ".env" = false :=
  C1_amended "img/a.png" "node_modules/x.js" "r" "r" 0 0 FSForest.nil
    (FSForest.cons (FSTree.file "a.py" 1 1) FSForest.nil)
    (FSTree.dir "node_modules" 0 0 (FSForest.cons (FSTree.file "evil.js" 1 1) FSForest.nil))
    "u" "b" [⟨"x.py", 1⟩] (fun _ => Except.ok []) 0 [] none
    (by decide) (by decide) (by decide) (by decide) (by intro e he; cases he)

end SmartRepo
